import Mathlib

/-!
Verification of the zkinterface libsnark integration codec
(`cpp/libsnark_integration.cpp`) against its design document.

The C++ source is shallowly embedded as executable Lean definitions:

* machine integers become `Nat` (wire variable ids are `uint64`, so additions
  producing wire ids are reduced `% 2 ^ 64`);
* a libff `bigint<r_limbs>` (an array of `r_limbs` 64-bit limbs, value
  `Σ data[j] * 2 ^ (64 * j)`) is represented by its value as a `Nat`; a
  bitwise OR confined to one limb, `data[limb] |= b << (8 * limb_byte)` with
  `b < 256` and `limb_byte < 8`, equals the OR on the value at global bit
  offset `8 * (8 * limb + limb_byte)`, which is how the limb loops below are
  rendered at value level;
* a libsnark `FieldT` is represented by its canonical value: the
  `FieldT(bigint)` constructor reduces modulo the field order `r`
  (`e.as_bigint()` returns that canonical value back);
* fallible code returns `Option`: a failed C `assert`, an out-of-bounds
  array access, or a division by zero in the source is rendered as `none`.

The constants `r_limbs` (limb count of the field's bigint), `fieldt_size`
(byte size used for one serialized element) and the field order `r` live in
`libsnark_integration.hpp`, which only declares them via libsnark typedefs;
they are kept as explicit parameters here.
-/

namespace ZkInterface

/-- Embeds `from_le` (bytes to bigint, little-endian): the loop body
`num.data[limb] |= mp_limb_t(bytes[byte]) << (limb_byte * 8)` with
`limb = byte / 8`, `limb_byte = byte % 8`, rendered at bigint-value level
(bit `8 * byte` of the value is bit `8 * limb_byte` of limb `byte / 8`).
The value of the accumulated bigint, before the size assert is taken into
account. -/
def from_le_val (bytes : List Nat) : Nat :=
  (List.range bytes.length).foldl
    (fun num byte => num ||| (bytes.getD byte 0 <<< (8 * byte))) 0

/-- Embeds `from_le(bytes, size)`. The source asserts
`bytes_per_limb * r_limbs >= size` (with `bytes_per_limb = 8`); a violated
assert aborts and is rendered as `none`. -/
def from_le (r_limbs : Nat) (bytes : List Nat) : Option Nat :=
  if bytes.length ≤ 8 * r_limbs then some (from_le_val bytes) else none

/-- Embeds `into_le(num, out, size)` (bigint to bytes, little-endian):
`out[byte] = uint8(num.data[limb] >> (limb_byte * 8))`, i.e. byte `byte` of
the bigint value. The source asserts `size >= bytes_per_limb * r_limbs`; in
addition, when `size > 8 * r_limbs` the loop reads `num.data[limb]` with
`limb ≥ r_limbs`, out of the bigint's limb array: both failures are `none`. -/
def into_le (r_limbs : Nat) (num : Nat) (size : Nat) : Option (List Nat) :=
  if 8 * r_limbs ≤ size then
    if size ≤ 8 * r_limbs then
      some ((List.range size).map fun byte => (num >>> (8 * byte)) % 256)
    else none
  else none

/-- The byte list `into_le` produces when it succeeds: `width` little-endian
bytes of `num`. -/
def le_bytes_width (width num : Nat) : List Nat :=
  (List.range width).map fun byte => (num >>> (8 * byte)) % 256

/-- Sequencing of an `Option`-valued map over a list, used to render loops
whose body can hit an assert: the loop result is `none` as soon as one
iteration faults, and the list of iteration results otherwise. -/
def traverseOption {α β : Type} (f : α → Option β) : List α → Option (List β)
  | [] => some []
  | a :: l => do
      let b ← f a
      let bs ← traverseOption f l
      pure (b :: bs)

/-- Embeds `le_into_elements(from_bytes, num_elements, element_size)`:
element `i` is `FieldT(from_le(from_bytes + element_size * i, element_size))`.
The guard models the pointer reads staying inside the buffer; the `% r` is
the `FieldT(bigint)` constructor's reduction modulo the field order. -/
def le_into_elements (r_limbs r : Nat) (from_bytes : List Nat)
    (num_elements element_size : Nat) : Option (List Nat) :=
  if element_size * num_elements ≤ from_bytes.length then
    traverseOption
      (fun i =>
        (from_le r_limbs
            ((from_bytes.drop (element_size * i)).take element_size)).map
          (fun v => v % r))
      (List.range num_elements)
  else none

/-- Embeds `deserialize_elements(from_bytes, num_elements)`:
`element_size = from_bytes->size() / num_elements` (integer division).
When `num_elements = 0` the source divides by zero, a fault rendered as
`none`; there is no well-formedness check of any kind. -/
def deserialize_elements (r_limbs r : Nat) (from_bytes : List Nat)
    (num_elements : Nat) : Option (List Nat) :=
  if num_elements = 0 then none
  else
    le_into_elements r_limbs r from_bytes num_elements
      (from_bytes.length / num_elements)

/-- The fields of the flatbuffers `Circuit` accessed by the source:
`circuit->connections()->variable_ids()` (the connection wire ids, a `uint64`
vector), `circuit->connections()->values()` (packed element bytes) and
`circuit->free_variable_id()`. Modelled from the spec: the generated
flatbuffers schema for this revision of the source is not part of the
sources; the spec describes these instance parameters as the connection-id
list, its packed values and the free-variable-id boundary. -/
structure Circuit where
  connection_ids : List Nat
  connection_values : List Nat
  free_variable_id : Nat

/-- Embeds `convert_variable_id(circuit, index)`: internal protoboard index
to wire variable id. Index 0 is the constant one; then `index -= 1`; an
index below the connection count returns the connection id at that position;
the output branch is commented out in the source; the remainder maps to
`free_id + index` in `uint64` arithmetic (`% 2 ^ 64`). -/
def convert_variable_id (circuit : Circuit) (index : Nat) : Nat :=
  if index = 0 then 0
  else if index - 1 < circuit.connection_ids.length then
    circuit.connection_ids.getD (index - 1) 0
  else
    (circuit.free_variable_id + (index - 1 - circuit.connection_ids.length))
      % 2 ^ 64

/-- One `libsnark::linear_term`: an internal variable index and a
coefficient (a `FieldT`, kept as its canonical value). -/
structure LinearTerm where
  index : Nat
  coeff : Nat
deriving DecidableEq

/-- One `libsnark::r1cs_constraint`: the three linear combinations, each an
ordered term list. -/
structure R1csConstraint where
  a : List LinearTerm
  b : List LinearTerm
  c : List LinearTerm
deriving DecidableEq

/-- The wire `Variables` table: parallel arrays of wire variable ids and
packed element bytes. -/
structure Variables where
  variable_ids : List Nat
  values : List Nat
deriving DecidableEq

/-- The wire `BilinearConstraint` table: the (A, B, C) triple. -/
structure BilinearConstraint where
  lc_a : Variables
  lc_b : Variables
  lc_c : Variables
deriving DecidableEq

/-- The libsnark `protoboard` as the source uses it: `pb.num_variables()`
and the full assignment `pb.val(index)` indexed by internal variable index
(index 0 is the constant one). `pb.val(i) = e` becomes a function update. -/
structure Protoboard where
  num_variables : Nat
  val : Nat → Nat

/-- Embeds the `make_lc` closure of `serialize_protoboard_constraints`:
`variable_ids[i] = convert_variable_id(circuit, terms[i].index)` and
`into_le(terms[i].coeff.as_bigint(), coeffs + fieldt_size * i, fieldt_size)`,
the coefficient bytes written at consecutive `fieldt_size` offsets. -/
def make_lc (r_limbs fieldt_size : Nat) (circuit : Circuit)
    (terms : List LinearTerm) : Option Variables := do
  let variable_ids := terms.map fun t => convert_variable_id circuit t.index
  let coeffs ← traverseOption
    (fun t => into_le r_limbs t.coeff fieldt_size) terms
  pure ⟨variable_ids, coeffs.flatten⟩

/-- Embeds `serialize_protoboard_constraints(circuit, pb)`: one wire
`BilinearConstraint` per constraint of `pb.get_constraint_system()`, in
iteration order, built from `make_lc` of the `a`, `b`, `c` term lists. The
protoboard's constraint list is passed directly. -/
def serialize_protoboard_constraints (r_limbs fieldt_size : Nat)
    (circuit : Circuit) (constraints : List R1csConstraint) :
    Option (List BilinearConstraint) :=
  traverseOption
    (fun c => do
      let fa ← make_lc r_limbs fieldt_size circuit c.a
      let fb ← make_lc r_limbs fieldt_size circuit c.b
      let fc ← make_lc r_limbs fieldt_size circuit c.c
      pure ⟨fa, fb, fc⟩)
    constraints

/-- Embeds `serialize_protoboard_local_assignment(circuit, num_outputs, pb)`:
`shared_vars = connection_count + num_outputs`,
`local_vars = pb.num_variables() - shared_vars` (a `size_t` subtraction,
rendered as truncated `Nat` subtraction; the source would wrap around if
`shared_vars` exceeded `num_variables`), `variable_ids[j] = free_id + j`
(`uint64`, hence `% 2 ^ 64`) and element `j` is
`into_le(pb.val(1 + shared_vars + j).as_bigint(), ..., fieldt_size)`. -/
def serialize_protoboard_local_assignment (r_limbs fieldt_size : Nat)
    (circuit : Circuit) (num_outputs : Nat) (pb : Protoboard) :
    Option Variables := do
  let shared_vars := circuit.connection_ids.length + num_outputs
  let local_vars := pb.num_variables - shared_vars
  let variable_ids := (List.range local_vars).map
    fun index => (circuit.free_variable_id + index) % 2 ^ 64
  let elements ← traverseOption
    (fun index => into_le r_limbs (pb.val (1 + shared_vars + index))
      fieldt_size)
    (List.range local_vars)
  pure ⟨variable_ids, elements.flatten⟩

/-- Embeds `deserialize_lincomb(terms)`: decode the packed values with
`deserialize_elements`, then `lc.add_term(variable(variable_ids->Get(i)),
elements[i])` for `i` in wire order — the wire id is used directly as the
variable index. The resulting `linear_combination` is its ordered term
list. -/
def deserialize_lincomb (r_limbs r : Nat) (terms : Variables) :
    Option (List LinearTerm) := do
  let num_terms := terms.variable_ids.length
  let elements ← deserialize_elements r_limbs r terms.values num_terms
  pure ((List.range num_terms).map fun i =>
    LinearTerm.mk (terms.variable_ids.getD i 0) (elements.getD i 0))

/-- Embeds `deserialize_constraint(constraint)`: the three linear
combinations imported with `deserialize_lincomb`. -/
def deserialize_constraint (r_limbs r : Nat) (constraint : BilinearConstraint) :
    Option R1csConstraint := do
  let la ← deserialize_lincomb r_limbs r constraint.lc_a
  let lb ← deserialize_lincomb r_limbs r constraint.lc_b
  let lc ← deserialize_lincomb r_limbs r constraint.lc_c
  pure ⟨la, lb, lc⟩

/-- The assignment loop of `copy_variables_into_protoboard`:
`id = variable_ids->Get(i); if (id == 0) continue; pb.val(id) = elements[i]`,
over the (id, element) pairs in message order. -/
def assign_loop : List (Nat × Nat) → (Nat → Nat) → Nat → Nat
  | [], val => val
  | (id, e) :: rest, val =>
    if id = 0 then assign_loop rest val
    else assign_loop rest (fun idx => if idx = id then e else val idx)

/-- Embeds `copy_variables_into_protoboard(pb, variables)`: decode the packed
values, then run the assignment loop — the wire id is used directly as the
protoboard index. -/
def copy_variables_into_protoboard (r_limbs r : Nat) (pb : Protoboard)
    (vars : Variables) : Option Protoboard := do
  let num_variables := vars.variable_ids.length
  let elements ← deserialize_elements r_limbs r vars.values num_variables
  pure { pb with
    val := assign_loop (vars.variable_ids.zip elements) pb.val }

/-- Modelled from the spec: the `to_internal(wire_id, connection_ids,
free_id)` mapping of design section 4.3. No such function exists in the
source; it is defined here only to compare the translation the spec claims
against what the import functions actually do. -/
def to_internal_spec (wire_id : Nat) (connection_ids : List Nat)
    (free_id : Nat) : Nat :=
  if wire_id = 0 then 0
  else if wire_id - 1 < connection_ids.length then 1 + (wire_id - 1)
  else free_id + (wire_id - 1 - connection_ids.length)

/-- The order of the scalar field of alt_bn128, the curve the integration is
instantiated with (`r_limbs = 4` limbs, canonical width 32 bytes). -/
def bn254_r : Nat :=
  21888242871839275222246405745257275088548364400416034343698204186575808495617

/-- A 32-byte little-endian buffer holding the value `x < 256`: one
serialized field element at the canonical width of alt_bn128. -/
def bytes32 (x : Nat) : List Nat :=
  x :: List.replicate 31 0

/-! ## Helper lemmas -/

theorem traverseOption_eq_some_map {α β : Type} (f : α → Option β)
    (g : α → β) (l : List α) (h : ∀ a ∈ l, f a = some (g a)) :
    traverseOption f l = some (l.map g) := by
  induction l with
  | nil => rfl
  | cons a t ih =>
    have ha : f a = some (g a) := h a (List.mem_cons_self a t)
    have ht := ih fun x hx => h x (List.mem_cons_of_mem a hx)
    simp [traverseOption, ha, ht]

theorem traverseOption_congr {α β : Type} (f g : α → Option β) (l : List α)
    (h : ∀ a ∈ l, f a = g a) : traverseOption f l = traverseOption g l := by
  induction l with
  | nil => rfl
  | cons a t ih =>
    have ha : f a = g a := h a (List.mem_cons_self a t)
    have ht := ih fun x hx => h x (List.mem_cons_of_mem a hx)
    simp [traverseOption, ha, ht]

theorem lor_shiftLeft_eq_add {a : Nat} (b n : Nat) (h : a < 2 ^ n) :
    a ||| (b <<< n) = a + 2 ^ n * b := by
  rw [Nat.shiftLeft_eq, Nat.mul_comm b (2 ^ n), Nat.lor_comm,
    ← Nat.mul_add_lt_is_or h b, Nat.add_comm]

theorem length_le_bytes_width (width num : Nat) :
    (le_bytes_width width num).length = width := by
  simp [le_bytes_width]

theorem getD_le_bytes_width (width num i : Nat) (h : i < width) :
    (le_bytes_width width num).getD i 0 = (num >>> (8 * i)) % 256 := by
  simp [le_bytes_width, List.getD, List.getElem?_map, List.getElem?_range h]

theorem from_le_val_le_bytes_width (width num : Nat) :
    from_le_val (le_bytes_width width num) = num % 2 ^ (8 * width) := by
  unfold from_le_val
  rw [length_le_bytes_width]
  have key : ∀ k, k ≤ width →
      (List.range k).foldl
        (fun acc byte =>
          acc ||| ((le_bytes_width width num).getD byte 0 <<< (8 * byte))) 0
        = num % 2 ^ (8 * k) := by
    intro k
    induction k with
    | zero => intro _; simp [Nat.mod_one]
    | succ m ih =>
      intro hm
      rw [List.range_succ, List.foldl_append, ih (Nat.le_of_succ_le hm)]
      simp only [List.foldl_cons, List.foldl_nil]
      rw [getD_le_bytes_width width num m (Nat.lt_of_succ_le hm)]
      rw [lor_shiftLeft_eq_add _ _ (Nat.mod_lt _ (Nat.two_pow_pos _))]
      rw [Nat.shiftRight_eq_div_pow]
      have h256 : (256 : Nat) = 2 ^ 8 := by norm_num
      have hexp : 8 * m + 8 = 8 * (m + 1) := by omega
      rw [h256, ← Nat.mod_mul, ← Nat.pow_add, hexp]
  exact key width (Nat.le_refl width)

theorem into_le_canonical (r_limbs num : Nat) :
    into_le r_limbs num (8 * r_limbs)
      = some (le_bytes_width (8 * r_limbs) num) := by
  simp [into_le, le_bytes_width]

theorem from_le_le_bytes_canonical (r_limbs num : Nat) :
    from_le r_limbs (le_bytes_width (8 * r_limbs) num)
      = some (num % 2 ^ (64 * r_limbs)) := by
  rw [from_le, if_pos (by rw [length_le_bytes_width])]
  rw [from_le_val_le_bytes_width]
  have hexp : 8 * (8 * r_limbs) = 64 * r_limbs := by omega
  rw [hexp]

theorem deserialize_elements_eq_map (r_limbs r : Nat) (b : List Nat)
    (n : Nat) (hn : 0 < n) (hes : b.length / n ≤ 8 * r_limbs) :
    deserialize_elements r_limbs r b n
      = some ((List.range n).map fun i =>
          from_le_val ((b.drop (b.length / n * i)).take (b.length / n)) % r) := by
  rw [deserialize_elements, if_neg (Nat.pos_iff_ne_zero.mp hn)]
  rw [le_into_elements, if_pos (Nat.div_mul_le_self b.length n)]
  apply traverseOption_eq_some_map
  intro i _
  have hlen : ((b.drop (b.length / n * i)).take (b.length / n)).length
      ≤ 8 * r_limbs := by
    have := List.length_take (b.length / n) (b.drop (b.length / n * i))
    exact le_trans (by rw [this]; exact Nat.min_le_left _ _) hes
  rw [from_le, if_pos hlen]
  rfl

theorem chunk_of_take_mul (b : List Nat) (es n i : Nat) (hi : i < n) :
    ((b.take (n * es)).drop (es * i)).take es = (b.drop (es * i)).take es := by
  have hle : es * i + es ≤ n * es := by
    have h1 : (i + 1) * es ≤ n * es :=
      Nat.mul_le_mul_right es (Nat.succ_le_of_lt hi)
    calc es * i + es = (i + 1) * es := by ring
    _ ≤ n * es := h1
  rw [List.take_drop, List.take_drop, List.take_take]
  have hmin : min (es * i + es) (n * es) = es * i + es := by omega
  rw [hmin]

theorem assign_loop_frame (pairs : List (Nat × Nat)) (v : Nat → Nat)
    (t : Nat) (h : ∀ q ∈ pairs, q.1 = 0 ∨ q.1 ≠ t) :
    assign_loop pairs v t = v t := by
  induction pairs generalizing v with
  | nil => rfl
  | cons q rest ih =>
    have hq := h q (List.mem_cons_self q rest)
    have hrest : ∀ p ∈ rest, p.1 = 0 ∨ p.1 ≠ t :=
      fun p hp => h p (List.mem_cons_of_mem q hp)
    obtain ⟨id, e⟩ := q
    by_cases h0 : id = 0
    · simp [assign_loop, h0, ih _ hrest]
    · have hne : id ≠ t := by
        rcases hq with h1 | h1
        · exact absurd h1 h0
        · exact h1
      simp only [assign_loop, if_neg h0]
      rw [ih _ hrest]
      simp [Ne.symm hne]

theorem assign_loop_last (xs ys : List (Nat × Nat)) (idx e : Nat)
    (v : Nat → Nat) (hidx : idx ≠ 0) (hys : ∀ q ∈ ys, q.1 ≠ idx) :
    assign_loop (xs ++ (idx, e) :: ys) v idx = e := by
  induction xs generalizing v with
  | nil =>
    simp only [List.nil_append, assign_loop, if_neg hidx]
    rw [assign_loop_frame ys _ idx (fun q hq => Or.inr (hys q hq))]
    simp
  | cons q rest ih =>
    obtain ⟨id, d⟩ := q
    by_cases h0 : id = 0
    · simp only [List.cons_append, assign_loop, if_pos h0]
      exact ih v
    · simp only [List.cons_append, assign_loop, if_neg h0]
      exact ih _

theorem getD_map_range_nat (f : Nat → Nat) (n i : Nat) (h : i < n) :
    ((List.range n).map f).getD i 0 = f i := by
  simp [List.getD, List.getElem?_map, List.getElem?_range h]

/-! ## Claim theorems -/

/-- Claim C3, counterexample: `deserialize_elements` on a 5-byte buffer with
element count 2 does not fail on the inexact division: it succeeds,
computing `element_size = 5 / 2 = 2` and silently ignoring the trailing
byte, so the result is the same as for the 4-byte prefix. -/
theorem deserialize_elements_inexact_division_cex :
    deserialize_elements 4 bn254_r [1, 2, 3, 4, 5] 2 = some [513, 1027]
    ∧ deserialize_elements 4 bn254_r [1, 2, 3, 4, 5] 2
        = deserialize_elements 4 bn254_r [1, 2, 3, 4] 2 := by
  exact ⟨by rfl, by rfl⟩

/-- Claim C3 as amended: `deserialize_elements` computes
`element_size = total_bytes / count` by flooring integer division and never
reports malformed input: when the division is not exact, the trailing
`total_bytes % count` bytes are silently ignored (the result equals the one
for the truncated buffer), and the decode succeeds whenever the inferred
element size fits the bigint capacity; a zero count is a division-by-zero
fault, not a `MalformedInput` report. -/
theorem deserialize_elements_truncates (r_limbs r : Nat) (b : List Nat)
    (n : Nat) (hn : 0 < n) :
    deserialize_elements r_limbs r b n
      = deserialize_elements r_limbs r (b.take (n * (b.length / n))) n
    ∧ (b.length / n ≤ 8 * r_limbs →
        (deserialize_elements r_limbs r b n).isSome = true) := by
  constructor
  · have hmul : n * (b.length / n) ≤ b.length := by
      rw [Nat.mul_comm]; exact Nat.div_mul_le_self b.length n
    have hlen : (b.take (n * (b.length / n))).length = n * (b.length / n) := by
      rw [List.length_take]; omega
    have hdiv : (b.take (n * (b.length / n))).length / n = b.length / n := by
      rw [hlen, Nat.mul_div_cancel_left _ hn]
    rw [deserialize_elements, deserialize_elements,
      if_neg (Nat.pos_iff_ne_zero.mp hn), if_neg (Nat.pos_iff_ne_zero.mp hn),
      hdiv, le_into_elements, le_into_elements,
      if_pos (by rw [Nat.mul_comm]; exact hmul),
      if_pos (by rw [hlen, Nat.mul_comm])]
    apply traverseOption_congr
    intro i hi
    rw [chunk_of_take_mul b (b.length / n) n i (List.mem_range.mp hi)]
  · intro hes
    rw [deserialize_elements_eq_map r_limbs r b n hn hes]
    rfl

/-- Claim C3 witness: the amended statement at the concrete 5-byte buffer
with count 2. -/
theorem deserialize_elements_truncates_witness :
    deserialize_elements 4 bn254_r [1, 2, 3, 4, 5] 2
      = deserialize_elements 4 bn254_r
          ([1, 2, 3, 4, 5].take (2 * (([1, 2, 3, 4, 5] : List Nat).length / 2))) 2
    ∧ (deserialize_elements 4 bn254_r [1, 2, 3, 4, 5] 2).isSome = true := by
  have h := deserialize_elements_truncates 4 bn254_r [1, 2, 3, 4, 5] 2
    (by decide)
  exact ⟨h.1, h.2 (by decide)⟩

/-- Claim C4, counterexample: at width 33, one more than the canonical
32-byte width of the alt_bn128 field (`r_limbs = 4`), the decode of the
encode of the element 1 does not return 1: `into_le` reads past the limb
array and `from_le`'s size assert fails, so the round trip faults instead
of returning the element. -/
theorem le_roundtrip_width_gt_canonical_cex :
    (into_le 4 1 33).bind
        (fun bs => (from_le 4 bs).map (fun v => v % bn254_r))
      ≠ some 1 := by
  decide

/-- Claim C4 as amended: the decode-encode round trip
`decode_le(encode_le(e, width), width) = e` holds at exactly the canonical
width `8 * r_limbs` (the byte capacity of the field's bigint): for any field
element `e < r` with `r` within the bigint capacity, encoding at width
`8 * r_limbs` and decoding returns `e`. For any strictly larger width the
source trips `from_le`'s size assert (and `into_le` reads out of bounds), so
the claim's quantification over all widths at or above the canonical width
fails. -/
theorem le_roundtrip_canonical_width (r_limbs r e : Nat) (h1 : e < r)
    (h2 : r ≤ 2 ^ (64 * r_limbs)) :
    (into_le r_limbs e (8 * r_limbs)).bind
        (fun bs => (from_le r_limbs bs).map (fun v => v % r))
      = some e := by
  rw [into_le_canonical]
  show (from_le r_limbs (le_bytes_width (8 * r_limbs) e)).map (fun v => v % r)
      = some e
  rw [from_le_le_bytes_canonical]
  have he : e % 2 ^ (64 * r_limbs) = e :=
    Nat.mod_eq_of_lt (Nat.lt_of_lt_of_le h1 h2)
  simp [he, Nat.mod_eq_of_lt h1]

/-- Claim C4 witness: the amended round trip at the canonical width of
alt_bn128 for the element 5. -/
theorem le_roundtrip_canonical_width_witness :
    (into_le 4 5 (8 * 4)).bind
        (fun bs => (from_le 4 bs).map (fun v => v % bn254_r))
      = some 5 :=
  le_roundtrip_canonical_width 4 bn254_r 5 (by decide) (by decide)

/-- Claim C5: `convert_variable_id` applies the three-range logic in
reverse: internal index 0 maps to wire id 0; an index in `1..K` (`K` the
connection count) maps to the connection id at that position; an index past
the free boundary `K + 1` maps to `free_id + (index - (K + 1))` (as a
`uint64`; stated below the wrap-around threshold). -/
theorem convert_variable_id_three_range (circuit : Circuit) (index : Nat) :
    convert_variable_id circuit 0 = 0
    ∧ (0 < index → index ≤ circuit.connection_ids.length →
        convert_variable_id circuit index
          = circuit.connection_ids.getD (index - 1) 0)
    ∧ (circuit.connection_ids.length < index →
        circuit.free_variable_id + (index - (circuit.connection_ids.length + 1))
            < 2 ^ 64 →
        convert_variable_id circuit index
          = circuit.free_variable_id
              + (index - (circuit.connection_ids.length + 1))) := by
  refine ⟨by simp [convert_variable_id], fun h1 h2 => ?_, fun h1 h2 => ?_⟩
  · rw [convert_variable_id, if_neg (by omega), if_pos (by omega)]
  · rw [convert_variable_id, if_neg (by omega), if_neg (by omega)]
    have hsub : index - 1 - circuit.connection_ids.length
        = index - (circuit.connection_ids.length + 1) := by omega
    rw [hsub, Nat.mod_eq_of_lt h2]

/-- Claim C5 witness: with connection ids `[5, 9]` and free id 100, internal
index 2 maps to the connection id 9 and internal index 5 maps to
`100 + (5 - 3) = 102`. -/
theorem convert_variable_id_three_range_witness :
    convert_variable_id ⟨[5, 9], [], 100⟩ 2 = 9
    ∧ convert_variable_id ⟨[5, 9], [], 100⟩ 5 = 102 := by
  have h2 := convert_variable_id_three_range ⟨[5, 9], [], 100⟩ 2
  have h5 := convert_variable_id_three_range ⟨[5, 9], [], 100⟩ 5
  exact ⟨(h2.2.1 (by decide) (by decide)).trans (by rfl),
    (h5.2.2 (by decide) (by decide)).trans (by rfl)⟩

/-- Claim C6: importing an assignment never alters the stored value at
internal index 0 and raises no error for pairs with wire id 0: whenever
`copy_variables_into_protoboard` completes, the value at index 0 is the
protoboard's prior value (the loop skips `id == 0`, and every other write
targets its own nonzero id). -/
theorem copy_variables_skips_zero (r_limbs r : Nat) (pb : Protoboard)
    (v : Variables)
    (h : (copy_variables_into_protoboard r_limbs r pb v).isSome = true) :
    ((copy_variables_into_protoboard r_limbs r pb v).getD pb).val 0
      = pb.val 0 := by
  cases hde : deserialize_elements r_limbs r v.values v.variable_ids.length
    with
  | none => simp [copy_variables_into_protoboard, hde] at h
  | some els =>
    simp only [copy_variables_into_protoboard, hde, Option.some_bind,
      Option.getD_some]
    exact assign_loop_frame (v.variable_ids.zip els) pb.val 0
      (fun q _ => by
        by_cases hq : q.1 = 0
        · exact Or.inl hq
        · exact Or.inr hq)

/-- Claim C6 witness: importing the pair (wire id 0, value 42) into a
protoboard whose index 0 holds 7 succeeds and leaves 7 there. -/
theorem copy_variables_skips_zero_witness :
    ((copy_variables_into_protoboard 4 bn254_r ⟨200, fun _ => 7⟩
        ⟨[0], bytes32 42⟩).getD ⟨200, fun _ => 7⟩).val 0 = 7 :=
  copy_variables_skips_zero 4 bn254_r ⟨200, fun _ => 7⟩ ⟨[0], bytes32 42⟩
    (by decide)

/-- Claim C9: for a positive element count `n`, `deserialize_elements`
returns exactly `n` elements, element `i` decoded from the chunk of
`len / n` (flooring division) bytes at offset `i * (len / n)` — trailing
`len % n` bytes never influence the result and no error is signaled — and
an element count of 0 hits the division by zero (a fault, not a reported
error). -/
theorem deserialize_elements_chunk_spec (r_limbs r : Nat) (b : List Nat)
    (n : Nat) (hn : 0 < n) (hes : b.length / n ≤ 8 * r_limbs) :
    deserialize_elements r_limbs r b n
      = some ((List.range n).map fun i =>
          from_le_val ((b.drop (b.length / n * i)).take (b.length / n)) % r)
    ∧ deserialize_elements r_limbs r b 0 = none :=
  ⟨deserialize_elements_eq_map r_limbs r b n hn hes,
    by rw [deserialize_elements, if_pos rfl]⟩

/-- Claim C9 witness: a 6-byte buffer with count 3 decodes to the three
2-byte chunks, and count 0 faults. -/
theorem deserialize_elements_chunk_spec_witness :
    deserialize_elements 4 bn254_r [9, 8, 7, 6, 5, 4] 3
      = some [2057, 1543, 1029]
    ∧ deserialize_elements 4 bn254_r [9, 8, 7, 6, 5, 4] 0 = none := by
  have h := deserialize_elements_chunk_spec 4 bn254_r [9, 8, 7, 6, 5, 4] 3
    (by decide) (by decide)
  exact ⟨h.1.trans (by rfl), h.2⟩

/-- Claim C10: for every internal index strictly greater than the connection
count `K`, `convert_variable_id` returns `free_id + (index - 1 - K)` — the
function takes no output count at all, the output branch being commented
out — so with `L > 0` outputs, the output-range index `K + 1 + j`
(`j < L`) receives the wire id `free_id + j`, the very id the local
assignment export gives the local variable at offset `j`. -/
theorem convert_variable_id_ignores_outputs (circuit : Circuit)
    (index L j : Nat) :
    (circuit.connection_ids.length < index →
      circuit.free_variable_id + (index - 1 - circuit.connection_ids.length)
          < 2 ^ 64 →
      convert_variable_id circuit index
        = circuit.free_variable_id
            + (index - 1 - circuit.connection_ids.length))
    ∧ (0 < L → j < L →
        circuit.free_variable_id + j < 2 ^ 64 →
        convert_variable_id circuit (circuit.connection_ids.length + 1 + j)
          = circuit.free_variable_id + j) := by
  constructor
  · intro h1 h2
    rw [convert_variable_id, if_neg (by omega), if_neg (by omega),
      Nat.mod_eq_of_lt h2]
  · intro hL hj hov
    rw [convert_variable_id, if_neg (by omega), if_neg (by omega)]
    have hsub : circuit.connection_ids.length + 1 + j - 1
        - circuit.connection_ids.length = j := by omega
    rw [hsub, Nat.mod_eq_of_lt hov]

/-- Claim C10 witness: with connection ids `[5, 9]`, free id 100 and one
output, the output-range internal index 3 gets wire id 100 — the id of the
first local variable — and index 4 gets `100 + (4 - 1 - 2) = 101`. -/
theorem convert_variable_id_ignores_outputs_witness :
    convert_variable_id ⟨[5, 9], [], 100⟩ 4 = 101
    ∧ convert_variable_id ⟨[5, 9], [], 100⟩ 3 = 100 := by
  have h := convert_variable_id_ignores_outputs ⟨[5, 9], [], 100⟩ 4 1 0
  exact ⟨(h.1 (by decide) (by decide)).trans (by rfl),
    (h.2 (by decide) (by decide) (by decide)).trans (by rfl)⟩

/-- Claim C1, counterexample: importing a linear combination holding the
single term (wire id 7, coefficient 3) yields the term with variable index
7 — the raw wire id — whereas the claimed `to_internal` translation (for
the recipient context with connection ids `[5, 9]` and free id 100) would
give internal index 104. `deserialize_lincomb` takes no connection-id list
or free id at all. -/
theorem deserialize_lincomb_no_translation_cex :
    deserialize_lincomb 4 bn254_r ⟨[7], bytes32 3⟩ = some [⟨7, 3⟩]
    ∧ to_internal_spec 7 [5, 9] 100 = 104
    ∧ (7 : Nat) ≠ 104 := by
  exact ⟨by rfl, by rfl, by decide⟩

/-- Claim C1 as amended: importing a wire bilinear constraint adds, for each
linear combination and each `i` in wire order, the term
(`variable_ids[i]`, decoded coefficient `i`) with the wire id used directly
as the variable index: no `to_internal` translation is applied (the import
functions receive no connection-id list or free-id boundary). -/
theorem deserialize_lincomb_raw_ids (r_limbs r : Nat) (v : Variables)
    (hn : 0 < v.variable_ids.length)
    (hes : v.values.length / v.variable_ids.length ≤ 8 * r_limbs) :
    deserialize_lincomb r_limbs r v
      = some ((List.range v.variable_ids.length).map fun i =>
          LinearTerm.mk (v.variable_ids.getD i 0)
            (from_le_val
              ((v.values.drop (v.values.length / v.variable_ids.length * i)).take
                (v.values.length / v.variable_ids.length)) % r)) := by
  simp only [deserialize_lincomb,
    deserialize_elements_eq_map r_limbs r v.values v.variable_ids.length hn hes,
    Option.bind_eq_bind, Option.some_bind, Option.pure_def]
  congr 1
  apply List.map_congr_left
  intro i hi
  rw [getD_map_range_nat _ _ _ (List.mem_range.mp hi)]

/-- Claim C1 witness: the amended statement at a two-term linear
combination; the terms come out as (7, 3) and (8, 4), in wire order. -/
theorem deserialize_lincomb_raw_ids_witness :
    deserialize_lincomb 4 bn254_r ⟨[7, 8], bytes32 3 ++ bytes32 4⟩
      = some [⟨7, 3⟩, ⟨8, 4⟩] := by
  have h := deserialize_lincomb_raw_ids 4 bn254_r
    ⟨[7, 8], bytes32 3 ++ bytes32 4⟩ (by decide) (by decide)
  exact h.trans (by rfl)

/-- Claim C7: exporting the local assignment produces exactly one entry per
local variable: with `K` connection ids, `num_outputs` outputs and free id
`F`, the entry at 0-based local offset `j` pairs wire id `F + j` with the
encoding of the full-assignment value at internal index
`1 + K + num_outputs + j`; no connection or output slot is exported. -/
theorem serialize_local_assignment_exact (r_limbs fieldt_size : Nat)
    (circuit : Circuit) (num_outputs : Nat) (pb : Protoboard)
    (hw : fieldt_size = 8 * r_limbs)
    (hshared : circuit.connection_ids.length + num_outputs
        ≤ pb.num_variables)
    (hov : circuit.free_variable_id
        + (pb.num_variables - (circuit.connection_ids.length + num_outputs))
        ≤ 2 ^ 64) :
    serialize_protoboard_local_assignment r_limbs fieldt_size circuit
        num_outputs pb
      = some
          ⟨(List.range
              (pb.num_variables
                - (circuit.connection_ids.length + num_outputs))).map
              (fun j => circuit.free_variable_id + j),
            ((List.range
              (pb.num_variables
                - (circuit.connection_ids.length + num_outputs))).map
              (fun j => le_bytes_width (8 * r_limbs)
                (pb.val (1 + (circuit.connection_ids.length + num_outputs)
                  + j)))).flatten⟩ := by
  subst hw
  have hloop := traverseOption_eq_some_map
    (fun index => into_le r_limbs
      (pb.val (1 + (circuit.connection_ids.length + num_outputs) + index))
      (8 * r_limbs))
    (fun index => le_bytes_width (8 * r_limbs)
      (pb.val (1 + (circuit.connection_ids.length + num_outputs) + index)))
    (List.range
      (pb.num_variables - (circuit.connection_ids.length + num_outputs)))
    (fun i _ => into_le_canonical r_limbs _)
  simp only [serialize_protoboard_local_assignment, hloop,
    Option.bind_eq_bind, Option.some_bind, Option.pure_def]
  have hids : (List.range
        (pb.num_variables
          - (circuit.connection_ids.length + num_outputs))).map
        (fun index => (circuit.free_variable_id + index) % 2 ^ 64)
      = (List.range
          (pb.num_variables
            - (circuit.connection_ids.length + num_outputs))).map
          (fun j => circuit.free_variable_id + j) := by
    apply List.map_congr_left
    intro j hj
    have hjlt := List.mem_range.mp hj
    exact Nat.mod_eq_of_lt (by omega)
  rw [hids]

/-- Claim C7 witness: the design document's example — 2 connections, 1
output, free id 100, full assignment (1, 10, 20, 30, 42) — exports the
single entry (wire id 100, value 42). -/
theorem serialize_local_assignment_exact_witness :
    serialize_protoboard_local_assignment 4 32 ⟨[5, 9], [], 100⟩ 1
        ⟨4, fun i => [1, 10, 20, 30, 42].getD i 0⟩
      = some ⟨[100], bytes32 42⟩ := by
  have h := serialize_local_assignment_exact 4 32 ⟨[5, 9], [], 100⟩ 1
    ⟨4, fun i => [1, 10, 20, 30, 42].getD i 0⟩ (by rfl) (by decide)
    (by decide)
  exact h.trans (by rfl)

theorem make_lc_eq (r_limbs : Nat) (circuit : Circuit)
    (terms : List LinearTerm) :
    make_lc r_limbs (8 * r_limbs) circuit terms
      = some ⟨terms.map fun t => convert_variable_id circuit t.index,
          (terms.map fun t => le_bytes_width (8 * r_limbs) t.coeff).flatten⟩ := by
  have hloop := traverseOption_eq_some_map
    (fun t => into_le r_limbs t.coeff (8 * r_limbs))
    (fun t => le_bytes_width (8 * r_limbs) t.coeff) terms
    (fun t _ => into_le_canonical r_limbs t.coeff)
  simp only [make_lc, hloop, Option.bind_eq_bind, Option.some_bind,
    Option.pure_def]

/-- Claim C8: constraint export emits exactly one wire bilinear constraint
per internal constraint, in the constraint list's order, preserving
duplicates, and each of the three linear combinations keeps its terms in
their original order (ids via `convert_variable_id`, coefficients packed at
the canonical width, in term order). -/
theorem serialize_constraints_one_to_one (r_limbs fieldt_size : Nat)
    (circuit : Circuit) (constraints : List R1csConstraint)
    (hw : fieldt_size = 8 * r_limbs) :
    serialize_protoboard_constraints r_limbs fieldt_size circuit constraints
      = some (constraints.map fun c =>
          ⟨⟨c.a.map fun t => convert_variable_id circuit t.index,
              (c.a.map fun t => le_bytes_width (8 * r_limbs) t.coeff).flatten⟩,
            ⟨c.b.map fun t => convert_variable_id circuit t.index,
              (c.b.map fun t => le_bytes_width (8 * r_limbs) t.coeff).flatten⟩,
            ⟨c.c.map fun t => convert_variable_id circuit t.index,
              (c.c.map fun t => le_bytes_width (8 * r_limbs) t.coeff).flatten⟩⟩) := by
  subst hw
  apply traverseOption_eq_some_map
  intro c _
  simp only [make_lc_eq, Option.bind_eq_bind, Option.some_bind,
    Option.pure_def]

/-- Claim C8 witness: the design document's end-to-end example — connection
ids `[5, 9]`, free id 100, one constraint with A = [(index 1, coeff 3)],
B = [(index 2, coeff 7)], C = [] — exports exactly one wire constraint with
A = ([5], enc 3), B = ([9], enc 7), C = ([], []). A duplicated constraint
is emitted twice. -/
theorem serialize_constraints_one_to_one_witness :
    serialize_protoboard_constraints 4 32 ⟨[5, 9], [], 100⟩
        [⟨[⟨1, 3⟩], [⟨2, 7⟩], []⟩, ⟨[⟨1, 3⟩], [⟨2, 7⟩], []⟩]
      = some [⟨⟨[5], bytes32 3⟩, ⟨[9], bytes32 7⟩, ⟨[], []⟩⟩,
          ⟨⟨[5], bytes32 3⟩, ⟨[9], bytes32 7⟩, ⟨[], []⟩⟩] := by
  have h := serialize_constraints_one_to_one 4 32 ⟨[5, 9], [], 100⟩
    [⟨[⟨1, 3⟩], [⟨2, 7⟩], []⟩, ⟨[⟨1, 3⟩], [⟨2, 7⟩], []⟩] (by rfl)
  exact h.trans (by rfl)

/-- Claim C2, counterexample: importing the pair (wire id 7, value 42) into
a zeroed protoboard writes 42 at internal index 7 — the raw wire id — and
leaves index 104 at 0, whereas the claimed `to_internal` translation (for
the recipient context with connection ids `[5, 9]` and free id 100) maps
wire id 7 to internal index 104. `copy_variables_into_protoboard` takes no
connection-id list or free id at all. -/
theorem copy_variables_no_translation_cex :
    (copy_variables_into_protoboard 4 bn254_r ⟨200, fun _ => 0⟩
        ⟨[7], bytes32 42⟩).map (fun p => (p.val 7, p.val 104))
      = some (42, 0)
    ∧ to_internal_spec 7 [5, 9] 100 = 104 := by
  exact ⟨by rfl, by rfl⟩

/-- Claim C2 as amended: each imported (wire_id, value) pair is written with
the wire id used directly as the internal index — no `to_internal`
translation — skipping pairs with wire id 0; a later pair with the same
nonzero wire id overwrites an earlier one unconditionally (last write wins,
no duplicate detection): after a successful import, the value at a nonzero
index `idx` whose last occurrence in the id list is at position
`xs.length` is the decoded element of that position's chunk. -/
theorem copy_variables_raw_id_last_write (r_limbs r : Nat) (pb : Protoboard)
    (v : Variables) (xs ys : List Nat) (idx : Nat)
    (hdec : v.variable_ids = xs ++ idx :: ys)
    (hidx : idx ≠ 0) (hys : idx ∉ ys)
    (hes : v.values.length / v.variable_ids.length ≤ 8 * r_limbs) :
    (copy_variables_into_protoboard r_limbs r pb v).map (fun p => p.val idx)
      = some (from_le_val
          ((v.values.drop
            (v.values.length / v.variable_ids.length * xs.length)).take
            (v.values.length / v.variable_ids.length)) % r) := by
  have hn : 0 < v.variable_ids.length := by
    rw [hdec, List.length_append, List.length_cons]; omega
  have hde := deserialize_elements_eq_map r_limbs r v.values
    v.variable_ids.length hn hes
  simp only [copy_variables_into_protoboard, hde, Option.bind_eq_bind,
    Option.some_bind, Option.pure_def, Option.map_some]
  have hk : xs.length < v.variable_ids.length := by
    rw [hdec, List.length_append, List.length_cons]; omega
  have hels_len : ((List.range v.variable_ids.length).map fun i =>
      from_le_val
        ((v.values.drop (v.values.length / v.variable_ids.length * i)).take
          (v.values.length / v.variable_ids.length)) % r).length
      = v.variable_ids.length := by
    rw [List.length_map, List.length_range]
  have hgetD : ((List.range v.variable_ids.length).map fun i =>
      from_le_val
        ((v.values.drop (v.values.length / v.variable_ids.length * i)).take
          (v.values.length / v.variable_ids.length)) % r).getD xs.length 0
      = from_le_val
          ((v.values.drop
            (v.values.length / v.variable_ids.length * xs.length)).take
            (v.values.length / v.variable_ids.length)) % r :=
    getD_map_range_nat _ _ _ hk
  set els := (List.range v.variable_ids.length).map fun i =>
    from_le_val
      ((v.values.drop (v.values.length / v.variable_ids.length * i)).take
        (v.values.length / v.variable_ids.length)) % r with hels_def
  have hk_els : xs.length < els.length := by rw [hels_len]; exact hk
  have hdrop : els.drop xs.length
      = els.getD xs.length 0 :: els.drop (xs.length + 1) := by
    rw [List.drop_eq_getElem_cons hk_els]
    congr 1
    simp [List.getD_eq_getElem?_getD, List.getElem?_eq_getElem hk_els]
  have hsplit : v.variable_ids.zip els
      = xs.zip (els.take xs.length)
        ++ (idx, els.getD xs.length 0) :: ys.zip (els.drop (xs.length + 1)) := by
    conv_lhs => rw [hdec, (List.take_append_drop xs.length els).symm]
    rw [List.zip_append
      (by rw [List.length_take]; omega)]
    rw [hdrop]
    rfl
  rw [hsplit]
  have hlast := assign_loop_last (xs.zip (els.take xs.length))
    (ys.zip (els.drop (xs.length + 1))) idx (els.getD xs.length 0) pb.val
    hidx (fun q hq => fun hcontra => hys (hcontra ▸ (List.of_mem_zip hq).1))
  simp only [Option.map_some']
  rw [hlast, hgetD]

/-- Claim C2 witness: importing wire id 7 twice, with values 42 then 43,
ends with 43 stored at internal index 7 (last write wins, raw id). -/
theorem copy_variables_raw_id_last_write_witness :
    (copy_variables_into_protoboard 4 bn254_r ⟨200, fun _ => 0⟩
        ⟨[7, 7], bytes32 42 ++ bytes32 43⟩).map (fun p => p.val 7)
      = some 43 := by
  have h := copy_variables_raw_id_last_write 4 bn254_r ⟨200, fun _ => 0⟩
    ⟨[7, 7], bytes32 42 ++ bytes32 43⟩ [7] [] 7 rfl (by decide) (by decide)
    (by decide)
  exact h.trans (by rfl)

end ZkInterface
